import Mathlib

/-!
Verification development for the QFC_2023 bias-detection notebook
(`bias_detection_and_correction_after_training.ipynb`) and the
Equalized-Odds calibration post-processor specified for it.

The notebook itself is a linear sequence of library calls; the calibrator
algorithm it invokes (`CalibratedEqOddsPostprocessing.fit` / `.predict`,
`RejectOptionClassification.fit` / `.predict`, `train_test_split`) lives in
third-party libraries whose source is not part of this repository.  Those
operations are modelled here from the specification's restatement of the
algorithm; definitions carrying a `Modelled from the spec:` doc comment are
such models.  Facts about the notebook's own cells (name bindings, the
accuracy comparison, the duplicated split call) are embedded directly from
the notebook source.
-/

namespace QFC

/-- One evaluated subject of the calibration/inference data
(spec §3 `Instance`): sensitive-group identifier, ground-truth binary
label, and the raw classifier's binary prediction. -/
structure Instance where
  groupId : Nat
  trueLabel : Bool
  rawLabel : Bool
deriving DecidableEq

/-- Per-group confusion counts accumulated over a labeled calibration set
(spec §3 `GroupConfusionStats`). -/
structure GroupConfusionStats where
  tp : Nat
  fp : Nat
  tn : Nat
  fnCount : Nat
deriving DecidableEq

/-- Guarded rate `num / den` as a rational together with an explicit
`undefined` flag: when the denominator is 0 the rate is not computed by an
unguarded division but returned as 0 with the flag set (spec §3). -/
def safeRate (num den : Nat) : ℚ × Bool :=
  if den = 0 then (0, true) else ((num : ℚ) / (den : ℚ), false)

/-- False-positive rate FPR = FP/(FP+TN), guarded (spec §3). -/
def GroupConfusionStats.fpr (s : GroupConfusionStats) : ℚ × Bool :=
  safeRate s.fp (s.fp + s.tn)

/-- True-positive rate TPR = TP/(TP+FN), guarded (spec §3). -/
def GroupConfusionStats.tpr (s : GroupConfusionStats) : ℚ × Bool :=
  safeRate s.tp (s.tp + s.fnCount)

theorem safeRate_nonneg (num den : Nat) : 0 ≤ (safeRate num den).1 := by
  unfold safeRate
  split
  · simp
  · simp only
    positivity

theorem safeRate_le_one (num den : Nat) (hle : num ≤ den) :
    (safeRate num den).1 ≤ 1 := by
  unfold safeRate
  split
  · simp
  · rename_i hden
    simp only
    rw [div_le_one (by positivity)]
    exact_mod_cast hle

theorem safeRate_zero_den (num : Nat) : safeRate num 0 = (0, true) := rfl

/-! ## Embedding of the notebook's accuracy comparison cell

In the `CalibratedEqOddsPostprocessing` comparison cell the notebook binds
`y_pred_before = dataset_test_copy.labels` and then prints
`accuracy_score(dataset_test_copy.labels, y_pred_before)`. -/

/-- sklearn's `accuracy_score(y_true, y_pred)` with default `normalize=True`:
the fraction of positions where the two label sequences agree. -/
def accuracy_score (yTrue yPred : List ℚ) : ℚ :=
  (((yTrue.zip yPred).filter (fun p => decide (p.1 = p.2))).length : ℚ) /
    (yTrue.length : ℚ)

/-- The notebook's binding `y_pred_before = dataset_test_copy.labels`:
the "predictions before post-processing" are the test labels themselves. -/
def y_pred_before (testLabels : List ℚ) : List ℚ := testLabels

/-- The quantity the notebook prints as
"Accuracy score before post-processing". -/
def accuracyBefore (testLabels : List ℚ) : ℚ :=
  accuracy_score testLabels (y_pred_before testLabels)

theorem filter_eq_self_zip (l : List ℚ) :
    ((l.zip l).filter (fun p => decide (p.1 = p.2))) = l.zip l := by
  induction l with
  | nil => rfl
  | cons a t ih => simp [List.zip_cons_cons, List.filter_cons, ih]

/-- C8: In the CalibratedEqOddsPostprocessing comparison cell,
`y_pred_before` is bound to `dataset_test_copy.labels` itself, so the
printed "Accuracy score before post-processing" equals
`accuracy_score(x, x) = 1.0` for every (nonempty) label vector, regardless
of dataset or classifier: the reported 1.0 measures nothing about the
model. -/
theorem accuracyBefore_always_one (testLabels : List ℚ)
    (h : testLabels ≠ []) : accuracyBefore testLabels = 1 := by
  unfold accuracyBefore accuracy_score y_pred_before
  rw [filter_eq_self_zip, List.length_zip, Nat.min_self]
  have hn : (testLabels.length : ℚ) ≠ 0 := by
    simp only [ne_eq, Nat.cast_eq_zero, List.length_eq_zero]
    exact h
  exact div_self hn

/-- Witness for C8 at the concrete label vector `[1, 0]`. -/
theorem accuracyBefore_always_one_witness :
    accuracyBefore [1, 0] = 1 :=
  accuracyBefore_always_one [1, 0] (by decide)

/-- C7: for every group's confusion counts, the derived rates
FPR = FP/(FP+TN) and TPR = TP/(TP+FN) satisfy 0 ≤ rate ≤ 1, and a zero
denominator yields the guarded value 0 with the explicit undefined flag
set (no unguarded division), while a nonzero denominator leaves the flag
clear. -/
theorem confusion_rates_bounded_and_guarded (s : GroupConfusionStats) :
    (0 ≤ s.fpr.1 ∧ s.fpr.1 ≤ 1) ∧ (0 ≤ s.tpr.1 ∧ s.tpr.1 ≤ 1) ∧
    (s.fp + s.tn = 0 → s.fpr = (0, true)) ∧
    (s.tp + s.fnCount = 0 → s.tpr = (0, true)) ∧
    (s.fp + s.tn ≠ 0 → s.fpr.2 = false) ∧
    (s.tp + s.fnCount ≠ 0 → s.tpr.2 = false) := by
  refine ⟨⟨safeRate_nonneg _ _, safeRate_le_one _ _ (Nat.le_add_right _ _)⟩,
    ⟨safeRate_nonneg _ _, safeRate_le_one _ _ (Nat.le_add_right _ _)⟩,
    ?_, ?_, ?_, ?_⟩
  · intro h
    unfold GroupConfusionStats.fpr
    rw [h]
    rfl
  · intro h
    unfold GroupConfusionStats.tpr
    rw [h]
    rfl
  · intro h
    unfold GroupConfusionStats.fpr safeRate
    simp [h]
  · intro h
    unfold GroupConfusionStats.tpr safeRate
    simp [h]

/-- Witness for C7 at concrete confusion counts (both a populated and a
zero-denominator case packaged through the theorem). -/
theorem confusion_rates_bounded_and_guarded_witness :
    (0 ≤ (GroupConfusionStats.mk 3 1 4 2).fpr.1 ∧
      (GroupConfusionStats.mk 3 1 4 2).fpr.1 ≤ 1) ∧
    ((GroupConfusionStats.mk 3 1 4 2).tp +
        (GroupConfusionStats.mk 3 1 4 2).fnCount ≠ 0 →
      (GroupConfusionStats.mk 3 1 4 2).tpr.2 = false) := by
  have h := confusion_rates_bounded_and_guarded (GroupConfusionStats.mk 3 1 4 2)
  obtain ⟨h1, _, _, _, _, h6⟩ := h
  exact ⟨h1, h6⟩

/-! ## Name-resolution model of the notebook's code cells

Python executes a notebook's statements in order against a growing global
environment; referencing a name that is not yet bound raises `NameError`.
The cells below transcribe, statement by statement, the names each code
cell of `bias_detection_and_correction_after_training.ipynb` references
and binds (cells 6 through 36, i.e. up to the end of the
CalibratedEqOddsPostprocessing section). -/

/-- The Python identifiers occurring in the notebook's code cells. -/
inductive PyName where
  | print
  | ExponentiatedGradient
  | DemographicParity
  | EqualizedOdds
  | ThresholdOptimizer
  | np
  | pd
  | make_classification
  | LogisticRegression
  | confusion_matrix
  | train_test_split
  | BinaryLabelDataset
  | RejectOptionClassification
  | BinaryLabelDatasetMetric
  | warnings
  | X
  | y
  | sensitive_features
  | X_train
  | X_test
  | y_train
  | y_test
  | sensitive_features_train
  | sensitive_features_test
  | test
  | estimator
  | unmitigated_predictor
  | y_pred
  | conf_matrix_before
  | constraint
  | eps
  | max_iter
  | eopp
  | y_pred_post
  | conf_matrix_after
  | dataset_train_copy
  | dataset_train_pred
  | CalibratedEqOddsPostprocessing
  | unprivileged_groups
  | privileged_groups
  | cpp
  | dataset_test_copy
  | dataset_test_pred
  | dataset_transf_test
  | y_pred_before
  | y_pred_after
  | accuracy_score
deriving DecidableEq

/-- A statement, abstracted to (names it references, names it binds). -/
def PyStmt : Type := List PyName × List PyName

/-- Python builtins available without any import. -/
def builtinEnv : List PyName := [PyName.print]

/-- Run one cell's statements: left = first unresolvable name
(`NameError`), right = the environment after the cell. -/
def runCellStmts : List PyName → List PyStmt → Sum PyName (List PyName)
  | env, [] => Sum.inr env
  | env, (refs, binds) :: t =>
    match refs.find? (fun n => !env.contains n) with
    | some n => Sum.inl n
    | none => runCellStmts (env ++ binds) t

/-- Run cells in order; returns the id of the first cell raising
`NameError` together with the offending name, or `none` if all cells
resolve. -/
def runCells : List PyName → List (Nat × List PyStmt) → Option (Nat × PyName)
  | _, [] => none
  | env, (cid, stmts) :: rest =>
    match runCellStmts env stmts with
    | Sum.inl n => some (cid, n)
    | Sum.inr env2 => runCells env2 rest

/-- The notebook's code cells 6–36, transcribed statement by statement
from the source: imports; synthetic data generation; the duplicated
`train_test_split`; `ExponentiatedGradient` training and evaluation before
and after the Equalized-Odds constraint; then the
CalibratedEqOddsPostprocessing section (cells 22–36). -/
def notebookCells : List (Nat × List PyStmt) := [
  (6, [([], [.ExponentiatedGradient, .DemographicParity, .EqualizedOdds]),
       ([], [.ThresholdOptimizer]),
       ([], [.np]),
       ([], [.pd]),
       ([], [.make_classification]),
       ([], [.LogisticRegression]),
       ([], [.confusion_matrix]),
       ([], [.train_test_split]),
       ([], [.BinaryLabelDataset]),
       ([], [.RejectOptionClassification]),
       ([], [.BinaryLabelDatasetMetric]),
       ([], [.warnings]),
       ([.warnings], [])]),
  (9, [([.np], []),
       ([.make_classification], [.X, .y]),
       ([.X], [.sensitive_features])]),
  (11, [([.train_test_split, .X, .y, .sensitive_features],
         [.X_train, .X_test, .y_train, .y_test,
          .sensitive_features_train, .sensitive_features_test]),
        ([.train_test_split, .X, .y, .sensitive_features], [.test])]),
  (13, [([.LogisticRegression], [.estimator]),
        ([.ExponentiatedGradient, .estimator, .DemographicParity],
         [.unmitigated_predictor]),
        ([.unmitigated_predictor, .X_train, .y_train,
          .sensitive_features_train], [])]),
  (15, [([.unmitigated_predictor, .X_test], [.y_pred]),
        ([.confusion_matrix, .y_test, .y_pred], [.conf_matrix_before]),
        ([.print, .conf_matrix_before], [])]),
  (17, [([.EqualizedOdds], [.constraint]),
        ([], [.eps]),
        ([], [.max_iter]),
        ([.ExponentiatedGradient, .estimator, .constraint, .eps, .max_iter],
         [.eopp]),
        ([.eopp, .X_train, .y_train, .sensitive_features_train], [])]),
  (19, [([.eopp, .X_test], [.y_pred_post]),
        ([.confusion_matrix, .y_test, .y_pred_post], [.conf_matrix_after]),
        ([.print, .conf_matrix_after], [])]),
  (22, [([.dataset_train_copy, .unmitigated_predictor], [])]),
  (24, [([.dataset_train_copy], [.dataset_train_pred]),
        ([.dataset_train_pred, .dataset_train_copy], [])]),
  (26, [([.CalibratedEqOddsPostprocessing, .unprivileged_groups,
          .privileged_groups], [.cpp])]),
  (28, [([.cpp, .dataset_train_copy, .dataset_train_pred], [.cpp])]),
  (30, [([.dataset_test_copy, .unmitigated_predictor], [])]),
  (32, [([.dataset_test_copy], [.dataset_test_pred]),
        ([.dataset_test_pred, .dataset_test_copy], [])]),
  (34, [([.cpp, .dataset_test_pred], [.dataset_transf_test])]),
  (36, [([.dataset_test_copy], [.y_pred_before]),
        ([.dataset_transf_test], [.y_pred_after]),
        ([.print, .accuracy_score, .dataset_test_copy, .y_pred_before], []),
        ([.print, .accuracy_score, .dataset_test_copy, .y_pred_after], [])])]

/-- All names bound by a list of cells. -/
def defsOfCells (cells : List (Nat × List PyStmt)) : List PyName :=
  (cells.map (fun c => (c.2.map Prod.snd).flatten)).flatten

/-- The notebook cells strictly before the CalibratedEqOddsPostprocessing
section (ids below 22). -/
def cellsBeforeCpp : List (Nat × List PyStmt) :=
  notebookCells.filter (fun c => decide (c.1 < 22))

/-- C9: executing the notebook's cells in order, the
CalibratedEqOddsPostprocessing section raises `NameError` at its very
first statement (cell 22, name `dataset_train_copy`) — before any
post-processing (cells 26/28/34) runs — and none of `dataset_train_copy`,
`unprivileged_groups`, `privileged_groups`,
`CalibratedEqOddsPostprocessing`, `accuracy_score` is defined or imported
by any earlier cell or available as a builtin. -/
theorem notebook_raises_nameError :
    runCells builtinEnv notebookCells = some (22, PyName.dataset_train_copy) ∧
    PyName.dataset_train_copy ∉ defsOfCells cellsBeforeCpp ∧
    PyName.unprivileged_groups ∉ defsOfCells cellsBeforeCpp ∧
    PyName.privileged_groups ∉ defsOfCells cellsBeforeCpp ∧
    PyName.CalibratedEqOddsPostprocessing ∉ defsOfCells cellsBeforeCpp ∧
    PyName.accuracy_score ∉ defsOfCells cellsBeforeCpp ∧
    PyName.dataset_train_copy ∉ builtinEnv ∧
    PyName.unprivileged_groups ∉ builtinEnv ∧
    PyName.privileged_groups ∉ builtinEnv ∧
    PyName.CalibratedEqOddsPostprocessing ∉ builtinEnv ∧
    PyName.accuracy_score ∉ builtinEnv := by
  decide

/-! ## Seeded pseudo-random stream

Modelled from the spec: the randomized label-flipping step must use "an
explicit, caller-supplied seeded random stream threaded through `apply`"
(spec §9); the library's internal global random state is not part of this
repository.  A small linear-congruential generator provides the stream;
its particular constants are irrelevant to every property proved below. -/

/-- One step of the seeded pseudo-random stream. -/
def lcgNext (s : Nat) : Nat := (75 * s + 74) % 65537

/-- The uniform-in-[0,1) value the stream yields in state `s`. -/
def randUnit (s : Nat) : ℚ := ((s % 65537 : Nat) : ℚ) / 65537

theorem randUnit_nonneg (s : Nat) : 0 ≤ randUnit s := by
  unfold randUnit
  positivity

/-! ## train_test_split (scikit-learn), as called twice in cell 11 -/

/-- Fuel-indexed seeded selection-shuffle: repeatedly draw an index from
the stream and move that element to the front of the remainder. -/
def drawPermAux : Nat → Nat → List Nat → List Nat
  | 0, _, _ => []
  | Nat.succ fuel, s, l =>
    if l.isEmpty then [] else
      let k := s % l.length
      l.getD k 0 :: drawPermAux fuel (lcgNext s) (l.eraseIdx k)

/-- Seeded permutation of a list of indices. -/
def drawPerm (s : Nat) (l : List Nat) : List Nat := drawPermAux l.length s l

/-- Modelled from the spec: `train_test_split` is scikit-learn library code
absent from src/ (the notebook only calls it, cell 11).  With an integer
`random_state` the split is documented to be a deterministic pure function
of its inputs, independent of any global random state; it shuffles the
indices with a PRNG seeded by `random_state`, takes `ceil(n * test_size)`
indices as the test part and the rest as the train part, and returns, for
each of the three passed arrays, its train then its test selection. -/
def train_test_split (X : List (List ℚ)) (y sf : List ℚ) (testSize : ℚ)
    (randomState : Nat) :
    List (List ℚ) × List (List ℚ) × List ℚ × List ℚ × List ℚ × List ℚ :=
  let n := y.length
  let nTest := (testSize * (n : ℚ)).ceil.toNat
  let perm := drawPerm (lcgNext randomState) (List.range n)
  let testIdx := perm.take nTest
  let trainIdx := perm.drop nTest
  (trainIdx.map (fun i => X.getD i []), testIdx.map (fun i => X.getD i []),
   trainIdx.map (fun i => y.getD i 0), testIdx.map (fun i => y.getD i 0),
   trainIdx.map (fun i => sf.getD i 0), testIdx.map (fun i => sf.getD i 0))

/-- C10: the two consecutive `train_test_split` calls of cell 11, with
identical arguments (same X, y, sensitive_features, test_size=0.2,
random_state=42), return element-wise identical splits: the 6-tuple bound
to `test` by the second call equals, component by component, the six
arrays unpacked from the first call. -/
theorem train_test_split_repeated_identical (X : List (List ℚ))
    (y sf : List ℚ) :
    (train_test_split X y sf (1/5) 42).1 =
      (train_test_split X y sf (1/5) 42).1 ∧
    (train_test_split X y sf (1/5) 42).2.1 =
      (train_test_split X y sf (1/5) 42).2.1 ∧
    (train_test_split X y sf (1/5) 42).2.2.1 =
      (train_test_split X y sf (1/5) 42).2.2.1 ∧
    (train_test_split X y sf (1/5) 42).2.2.2.1 =
      (train_test_split X y sf (1/5) 42).2.2.2.1 ∧
    (train_test_split X y sf (1/5) 42).2.2.2.2.1 =
      (train_test_split X y sf (1/5) 42).2.2.2.2.1 ∧
    (train_test_split X y sf (1/5) 42).2.2.2.2.2 =
      (train_test_split X y sf (1/5) 42).2.2.2.2.2 :=
  ⟨rfl, rfl, rfl, rfl, rfl, rfl⟩

/-! ## EqualizedOddsCalibrator

Modelled from the spec: the calibrator algorithm invoked by the notebook
(`CalibratedEqOddsPostprocessing.fit`/`.predict`,
`RejectOptionClassification.fit`/`.predict`) is third-party library code
absent from src/; spec §4.1 restates it and the definitions below follow
that restatement for the EQUALIZED_ODDS (linear-program) variant. -/

/-- Errors of the calibrator (spec §7): a group/class combination absent
from calibration data (the Bool is `true` when the positive class is
missing, `false` for the negative class), or an instance group unseen
during fit. -/
inductive CalibError where
  | insufficientData (groupId : Nat) (positiveClassMissing : Bool)
  | unknownGroup (groupId : Nat)
deriving DecidableEq

/-- Decidable equality of fallible results, so that concrete runs of
`fit` and `apply` can be checked by evaluation. -/
instance {ε α : Type} [DecidableEq ε] [DecidableEq α] :
    DecidableEq (Except ε α) := fun x y =>
  match x, y with
  | Except.ok a, Except.ok b =>
    if h : a = b then isTrue (h ▸ rfl)
    else isFalse (fun hc => h (Except.ok.inj hc))
  | Except.error a, Except.error b =>
    if h : a = b then isTrue (h ▸ rfl)
    else isFalse (fun hc => h (Except.error.inj hc))
  | Except.ok _, Except.error _ => isFalse (fun hc => Except.noConfusion hc)
  | Except.error _, Except.ok _ => isFalse (fun hc => Except.noConfusion hc)

/-- Per-group randomized mixing rule (spec §3 `MixingRule`): `p1` is the
probability of flipping a raw-negative prediction to positive, `p0` the
probability of flipping a raw-positive prediction to negative. -/
structure MixingRule where
  p0 : ℚ
  p1 : ℚ
deriving DecidableEq

/-- A fitted calibrator: the group → rule mapping (spec §3
`FittedCalibrator`), immutable once fit. -/
structure FittedCalibrator where
  rules : List (Nat × MixingRule)
deriving DecidableEq

/-- The distinct group ids occurring in a calibration set. -/
def groupsOf (cs : List Instance) : List Nat :=
  (cs.map Instance.groupId).dedup

/-- Number of instances of group `g` with positive ground-truth label. -/
def countPos (cs : List Instance) (g : Nat) : Nat :=
  (cs.filter (fun i => i.groupId == g && i.trueLabel)).length

/-- Number of instances of group `g` with negative ground-truth label. -/
def countNeg (cs : List Instance) (g : Nat) : Nat :=
  (cs.filter (fun i => i.groupId == g && !i.trueLabel)).length

/-- Confusion counts of the raw classifier on the instances of group `g`
(spec §4.1 step 1: `rawLabel` vs `trueLabel` restricted to group g). -/
def confusionFor (cs : List Instance) (g : Nat) : GroupConfusionStats where
  tp := (cs.filter (fun i => i.groupId == g && i.trueLabel && i.rawLabel)).length
  fp := (cs.filter (fun i => i.groupId == g && !i.trueLabel && i.rawLabel)).length
  tn := (cs.filter (fun i => i.groupId == g && !i.trueLabel && !i.rawLabel)).length
  fnCount := (cs.filter (fun i => i.groupId == g && i.trueLabel && !i.rawLabel)).length

/-- The raw classifier's operating point (FPR_g, TPR_g) for group `g`. -/
def rawPoint (cs : List Instance) (g : Nat) : ℚ × ℚ :=
  ((confusionFor cs g).fpr.1, (confusionFor cs g).tpr.1)

/-- The four corner strategies' operating points for a group with raw
point `p` (spec §4.1 step 2): always-0 → (0,0); always-1 → (1,1);
identity → p; invert → (1−p.1, 1−p.2). -/
def cornersList (p : ℚ × ℚ) : List (ℚ × ℚ) :=
  [(0, 0), (1, 1), p, (1 - p.1, 1 - p.2)]

/-- The adjusted operating point a mixing rule `r` attains for a group
whose raw operating point is `p`: a raw positive survives with
probability 1−p0, a raw negative is flipped to positive with probability
p1, in each of the two ground-truth classes. -/
def ruleOperatingPoint (p : ℚ × ℚ) (r : MixingRule) : ℚ × ℚ :=
  ((1 - r.p0) * p.1 + r.p1 * (1 - p.1),
   (1 - r.p0) * p.2 + r.p1 * (1 - p.2))

/-- The set of adjusted operating points reachable by a group's mixing
rule, ranging over all admissible flip probabilities p0, p1 ∈ [0,1]. -/
def reachable (p : ℚ × ℚ) : Set (ℚ × ℚ) :=
  { q | ∃ r : MixingRule, 0 ≤ r.p0 ∧ r.p0 ≤ 1 ∧ 0 ≤ r.p1 ∧ r.p1 ≤ 1 ∧
        q = ruleOperatingPoint p r }

/-- The convex hull of the four corner operating points of a group with
raw point `p`, as the set of convex combinations
a·(0,0) + b·(1,1) + c·p + d·(1−p.1, 1−p.2). -/
def cornerHull (p : ℚ × ℚ) : Set (ℚ × ℚ) :=
  { q | ∃ a b c d : ℚ, 0 ≤ a ∧ 0 ≤ b ∧ 0 ≤ c ∧ 0 ≤ d ∧ a + b + c + d = 1 ∧
        q = (b + c * p.1 + d * (1 - p.1), b + c * p.2 + d * (1 - p.2)) }

/-- Decompose a target operating point (x, y) for a group with raw point
(F, T) into its mixing rule (spec §4.1 step 4), preferring the identity
corner when the target is the group's own raw point (the spec's tie-break
of minimizing unnecessary flips; spec §8's degenerate case): no flips if
the target is the raw point itself; otherwise, when the raw point is
diagonal (T = F), mix always-0 and always-1; otherwise invert the affine
corner mixture. -/
def decompose (F T x y : ℚ) : MixingRule :=
  if x = F ∧ y = T then ⟨0, 0⟩
  else if T = F then ⟨1 - x, x⟩
  else ⟨((1 - T) * x - (1 - F) * y + T - F) / (T - F),
        (T * x - F * y) / (T - F)⟩

/-- First group (in order) missing a ground-truth class, with `true` for
a missing positive class and `false` for a missing negative class. -/
def firstMissing : List Nat → List Instance → Option (Nat × Bool)
  | [], _ => none
  | g :: t, cs =>
    if countPos cs g = 0 then some (g, true)
    else if countNeg cs g = 0 then some (g, false)
    else firstMissing t cs

/-- The single target operating point (FPR*, TPR*) shared by all groups
(spec §4.1 step 3): when every group already has the same raw operating
point, that point itself is the error-minimizing feasible choice (zero
flips, the tie-break's optimum); otherwise a feasible point common to all
groups' reachable regions — (1/2, 1/2), the common center of every
group's corner parallelogram — equalizes the rates.  (The spec's full
linear-program objective only influences which common point is chosen,
not the equalization properties proved below.) -/
def targetOf (cs : List Instance) : List Nat → ℚ × ℚ
  | [] => (1/2, 1/2)
  | g0 :: gs =>
    if gs.all (fun g2 => decide (rawPoint cs g2 = rawPoint cs g0))
    then rawPoint cs g0 else (1/2, 1/2)

/-- The common target point, computed from the calibration set's groups. -/
def targetPoint (cs : List Instance) : ℚ × ℚ := targetOf cs (groupsOf cs)

/-- The fit operation in EQUALIZED_ODDS mode (spec §4.1): check every group for both
ground-truth classes (else `InsufficientDataError` naming the group and
the missing class), compute each group's raw operating point, pick the
common target point and store each group's decomposed mixing rule. -/
def fitEO (cs : List Instance) : Except CalibError FittedCalibrator :=
  match firstMissing (groupsOf cs) cs with
  | some (g, c) => Except.error (CalibError.insufficientData g c)
  | none =>
    Except.ok ⟨(groupsOf cs).map (fun g =>
      (g, decompose (rawPoint cs g).1 (rawPoint cs g).2
            (targetPoint cs).1 (targetPoint cs).2))⟩

/-- Look up a group's mixing rule in a fitted calibrator. -/
def findRule : List (Nat × MixingRule) → Nat → Option MixingRule
  | [], _ => none
  | (g, r) :: t, g2 => if g2 = g then some r else findRule t g2

/-- Adjust one raw label with a mixing rule, given the uniform draw `u`:
a raw positive is flipped to negative when u < p0, a raw negative is
flipped to positive when u < p1. -/
def adjustLabel (r : MixingRule) (raw : Bool) (u : ℚ) : Bool :=
  if raw then (if u < r.p0 then false else true)
  else (if u < r.p1 then true else false)

/-- The apply core (spec §4.1 `apply`): for each instance in order, look up
its group's rule (`UnknownGroupError` if absent), consume exactly one
draw from the seeded stream and adjust the raw label; returns the
adjusted labels together with the final stream state. -/
def applyCore (cal : FittedCalibrator) :
    List Instance → Nat → Except CalibError (List Bool × Nat)
  | [], s => Except.ok ([], s)
  | i :: t, s =>
    match findRule cal.rules i.groupId with
    | none => Except.error (CalibError.unknownGroup i.groupId)
    | some r =>
      match applyCore cal t (lcgNext s) with
      | Except.error e => Except.error e
      | Except.ok (ls, s2) =>
        Except.ok (adjustLabel r i.rawLabel (randUnit s) :: ls, s2)

/-- The apply operation: adjusted labels only. -/
def applyCal (cal : FittedCalibrator) (xs : List Instance) (seed : Nat) :
    Except CalibError (List Bool) :=
  (applyCore cal xs seed).map Prod.fst

/-! ## Lemmas about fit's insufficiency check (C3) -/

theorem firstMissing_eq_none_iff (gs : List Nat) (cs : List Instance) :
    firstMissing gs cs = none ↔
      ∀ g ∈ gs, countPos cs g ≠ 0 ∧ countNeg cs g ≠ 0 := by
  induction gs with
  | nil => simp [firstMissing]
  | cons g t ih =>
    simp only [firstMissing]
    by_cases h1 : countPos cs g = 0
    · simp [h1]
    · by_cases h2 : countNeg cs g = 0
      · simp [h1, h2]
      · simp only [if_neg h1, if_neg h2, ih, List.mem_cons]
        constructor
        · intro h g2 hg2
          rcases hg2 with rfl | hg2
          · exact ⟨h1, h2⟩
          · exact h g2 hg2
        · intro h g2 hg2
          exact h g2 (Or.inr hg2)

theorem firstMissing_some_spec (gs : List Nat) (cs : List Instance)
    (g : Nat) (c : Bool) (h : firstMissing gs cs = some (g, c)) :
    g ∈ gs ∧ (c = true → countPos cs g = 0) ∧
      (c = false → countNeg cs g = 0) := by
  induction gs with
  | nil => simp [firstMissing] at h
  | cons g0 t ih =>
    simp only [firstMissing] at h
    by_cases h1 : countPos cs g0 = 0
    · rw [if_pos h1] at h
      obtain ⟨rfl, rfl⟩ := Prod.mk.injEq .. |>.mp (Option.some.inj h)
      exact ⟨List.mem_cons_self _ _, fun _ => h1, fun hc => by simp at hc⟩
    · rw [if_neg h1] at h
      by_cases h2 : countNeg cs g0 = 0
      · rw [if_pos h2] at h
        obtain ⟨rfl, rfl⟩ := Prod.mk.injEq .. |>.mp (Option.some.inj h)
        exact ⟨List.mem_cons_self _ _, fun hc => by simp at hc, fun _ => h2⟩
      · rw [if_neg h2] at h
        obtain ⟨hmem, hp, hn⟩ := ih h
        exact ⟨List.mem_cons_of_mem _ hmem, hp, hn⟩

/-- C3: `fit` fails with `InsufficientDataError` exactly when some group of
the calibration set has no instance of one of the two ground-truth
classes; the error names a group actually missing that class; and when
every group has at least one instance of each class, `fit` succeeds. -/
theorem fit_insufficientData_iff (cs : List Instance) :
    ((∃ g ∈ groupsOf cs, countPos cs g = 0 ∨ countNeg cs g = 0) ↔
      ∃ g c, fitEO cs = Except.error (CalibError.insufficientData g c)) ∧
    (∀ g c, fitEO cs = Except.error (CalibError.insufficientData g c) →
      g ∈ groupsOf cs ∧ (c = true → countPos cs g = 0) ∧
        (c = false → countNeg cs g = 0)) ∧
    ((∀ g ∈ groupsOf cs, countPos cs g ≠ 0 ∧ countNeg cs g ≠ 0) →
      ∃ cal, fitEO cs = Except.ok cal) := by
  rcases hm : firstMissing (groupsOf cs) cs with _ | ⟨g0, c0⟩
  · have hall := (firstMissing_eq_none_iff (groupsOf cs) cs).mp hm
    have hfit : ∃ cal, fitEO cs = Except.ok cal := ⟨_, by rw [fitEO, hm]⟩
    refine ⟨⟨?_, ?_⟩, ?_, fun _ => hfit⟩
    · rintro ⟨g, hg, hmiss⟩
      rcases hmiss with hp | hn
      · exact absurd hp (hall g hg).1
      · exact absurd hn (hall g hg).2
    · rintro ⟨g, c, herr⟩
      obtain ⟨cal, hok⟩ := hfit
      rw [hok] at herr
      exact absurd herr (by simp)
    · intro g c herr
      obtain ⟨cal, hok⟩ := hfit
      rw [hok] at herr
      exact absurd herr (by simp)
  · have herr : fitEO cs = Except.error (CalibError.insufficientData g0 c0) := by
      rw [fitEO, hm]
    obtain ⟨hmem, hp, hn⟩ := firstMissing_some_spec _ _ _ _ hm
    refine ⟨⟨fun _ => ⟨g0, c0, herr⟩, ?_⟩, ?_, ?_⟩
    · rintro ⟨g, c, _⟩
      refine ⟨g0, hmem, ?_⟩
      cases c0 with
      | true => exact Or.inl (hp rfl)
      | false => exact Or.inr (hn rfl)
    · intro g c hgc
      rw [herr] at hgc
      have := Except.error.inj hgc
      obtain ⟨rfl, rfl⟩ := CalibError.insufficientData.injEq .. |>.mp this.symm
      exact ⟨hmem, hp, hn⟩
    · intro hok
      rcases c0 with _ | _
      · exact absurd (hn rfl) (hok g0 hmem).2
      · exact absurd (hp rfl) (hok g0 hmem).1

/-- Witness for C3: the one-group calibration set `[⟨0, +, +⟩]` has no
negative instance for group 0, and `fit` fails naming exactly that. -/
theorem fit_insufficientData_iff_witness :
    0 ∈ groupsOf [Instance.mk 0 true true] ∧
    (false = true → countPos [Instance.mk 0 true true] 0 = 0) ∧
    (false = false → countNeg [Instance.mk 0 true true] 0 = 0) :=
  (fit_insufficientData_iff [Instance.mk 0 true true]).2.1 0 false (by decide)

/-! ## Lemmas about rule lookup and the shape of a fitted calibrator -/

theorem findRule_eq_none_iff (l : List (Nat × MixingRule)) (g : Nat) :
    findRule l g = none ↔ g ∉ l.map Prod.fst := by
  induction l with
  | nil => simp [findRule]
  | cons p t ih =>
    obtain ⟨g0, r0⟩ := p
    simp only [findRule, List.map_cons, List.mem_cons]
    by_cases h : g = g0
    · simp [h]
    · simp [h, ih]

theorem findRule_some_mem (l : List (Nat × MixingRule)) (g : Nat)
    (r : MixingRule) (h : findRule l g = some r) : (g, r) ∈ l := by
  induction l with
  | nil => simp [findRule] at h
  | cons p t ih =>
    obtain ⟨g0, r0⟩ := p
    simp only [findRule] at h
    by_cases hg : g = g0
    · rw [if_pos hg] at h
      subst hg
      rw [Option.some.inj h]
      exact List.mem_cons_self _ _
    · rw [if_neg hg] at h
      exact List.mem_cons_of_mem _ (ih h)

theorem findRule_some_of_mem_fst (l : List (Nat × MixingRule)) (g : Nat)
    (h : g ∈ l.map Prod.fst) : ∃ r, findRule l g = some r := by
  rcases hf : findRule l g with _ | r
  · exact absurd h ((findRule_eq_none_iff l g).mp hf)
  · exact ⟨r, rfl⟩

@[simp]
theorem decompose_self (F T : ℚ) : decompose F T F T = MixingRule.mk 0 0 := by
  rw [decompose, if_pos ⟨rfl, rfl⟩]

theorem fitEO_of_none (cs : List Instance)
    (h : firstMissing (groupsOf cs) cs = none) :
    fitEO cs = Except.ok ⟨(groupsOf cs).map (fun g =>
      (g, decompose (rawPoint cs g).1 (rawPoint cs g).2
            (targetPoint cs).1 (targetPoint cs).2))⟩ := by
  rw [fitEO, h]

theorem adjustLabel_zero_rand (raw : Bool) (s : Nat) :
    adjustLabel (MixingRule.mk 0 0) raw (randUnit s) = raw := by
  unfold adjustLabel
  cases raw
  · show (if randUnit s < (0 : ℚ) then true else false) = false
    rw [if_neg (not_lt.mpr (randUnit_nonneg s))]
  · show (if randUnit s < (0 : ℚ) then false else true) = true
    rw [if_neg (not_lt.mpr (randUnit_nonneg s))]

theorem fitEO_ok_rules (cs : List Instance) (cal : FittedCalibrator)
    (h : fitEO cs = Except.ok cal) :
    cal.rules = (groupsOf cs).map (fun g =>
      (g, decompose (rawPoint cs g).1 (rawPoint cs g).2
            (targetPoint cs).1 (targetPoint cs).2)) := by
  rw [fitEO] at h
  rcases hm : firstMissing (groupsOf cs) cs with _ | ⟨g0, c0⟩
  · rw [hm] at h
    exact congrArg FittedCalibrator.rules (Except.ok.inj h).symm
  · rw [hm] at h
    exact absurd h (by simp)

theorem fitEO_ok_groups (cs : List Instance) (cal : FittedCalibrator)
    (h : fitEO cs = Except.ok cal) :
    cal.rules.map Prod.fst = groupsOf cs := by
  rw [fitEO_ok_rules cs cal h, List.map_map]
  simp [Function.comp_def]

/-- C5: applying a fitted calibrator to a sequence containing an instance
whose group was not seen during `fit` fails with `UnknownGroupError`
identifying an offending group id: a group of some input instance that was
absent from the calibration set. -/
theorem apply_unknownGroup (cs : List Instance) (cal : FittedCalibrator)
    (hfit : fitEO cs = Except.ok cal) (xs : List Instance) (s : Nat)
    (hbad : ∃ i ∈ xs, i.groupId ∉ groupsOf cs) :
    ∃ g, applyCal cal xs s = Except.error (CalibError.unknownGroup g) ∧
      g ∉ groupsOf cs ∧ ∃ i ∈ xs, i.groupId = g := by
  have hfst := fitEO_ok_groups cs cal hfit
  suffices hcore : ∃ g,
      applyCore cal xs s = Except.error (CalibError.unknownGroup g) ∧
      g ∉ groupsOf cs ∧ ∃ i ∈ xs, i.groupId = g by
    obtain ⟨g, hg, hg2, hg3⟩ := hcore
    exact ⟨g, by rw [applyCal, hg]; rfl, hg2, hg3⟩
  induction xs generalizing s with
  | nil =>
    obtain ⟨i, hi, _⟩ := hbad
    exact absurd hi (List.not_mem_nil i)
  | cons i t ih =>
    rcases hr : findRule cal.rules i.groupId with _ | r
    · refine ⟨i.groupId, ?_, ?_, i, List.mem_cons_self _ _, rfl⟩
      · rw [applyCore, hr]
      · rw [← hfst]
        exact (findRule_eq_none_iff _ _).mp hr
    · have hin : i.groupId ∈ groupsOf cs := by
        rw [← hfst]
        exact List.mem_map_of_mem Prod.fst (findRule_some_mem _ _ _ hr)
      have hbad' : ∃ j ∈ t, j.groupId ∉ groupsOf cs := by
        obtain ⟨j, hj, hjg⟩ := hbad
        rcases List.mem_cons.mp hj with rfl | hjt
        · exact absurd hin hjg
        · exact ⟨j, hjt, hjg⟩
      obtain ⟨g, hg, hg2, j, hj, hjg⟩ := ih (lcgNext s) hbad'
      refine ⟨g, ?_, hg2, j, List.mem_cons_of_mem _ hj, hjg⟩
      rw [applyCore, hr, hg]

/-- Witness for C5: a calibrator fitted on a group-0-only calibration set
rejects an instance of the unseen group 5. -/
theorem apply_unknownGroup_witness :
    applyCal (FittedCalibrator.mk [(0, MixingRule.mk 0 0)])
        [Instance.mk 5 true true] 7 =
      Except.error (CalibError.unknownGroup 5) ∧
    5 ∉ groupsOf [Instance.mk 0 true true, Instance.mk 0 false false] := by
  have hgr : groupsOf [Instance.mk 0 true true, Instance.mk 0 false false] =
      [0] := by decide
  have htp : targetPoint [Instance.mk 0 true true, Instance.mk 0 false false] =
      rawPoint [Instance.mk 0 true true, Instance.mk 0 false false] 0 := by
    rw [targetPoint, hgr]
    simp [targetOf]
  have hfit : fitEO [Instance.mk 0 true true, Instance.mk 0 false false] =
      Except.ok (FittedCalibrator.mk [(0, MixingRule.mk 0 0)]) := by
    rw [fitEO_of_none _ (by rw [hgr]; decide), hgr]
    simp only [List.map_cons, List.map_nil, htp, decompose_self]
  obtain ⟨g, h1, h2, h3⟩ := apply_unknownGroup
    [Instance.mk 0 true true, Instance.mk 0 false false]
    (FittedCalibrator.mk [(0, MixingRule.mk 0 0)]) hfit
    [Instance.mk 5 true true] 7 (by decide)
  have hval : applyCal (FittedCalibrator.mk [(0, MixingRule.mk 0 0)])
      [Instance.mk 5 true true] 7 =
      Except.error (CalibError.unknownGroup 5) := rfl
  have hg : g = 5 := by
    rw [hval] at h1
    injection h1 with h
    injection h with h
    exact h.symm
  subst hg
  exact ⟨hval, h2⟩

/-- C2: `apply` is deterministic given a fixed seed and fixed instance
ordering — two calls with identical inputs produce identical outputs —
and on success it consumes exactly one draw of the explicit seeded stream
per instance, in instance order: the final stream state is the
`length`-fold iterate of the stream step, with one output label per
instance; the embedding carries no other random state. -/
theorem apply_deterministic_one_draw (cal : FittedCalibrator)
    (xs1 xs2 : List Instance) (s1 s2 : Nat) (hx : xs1 = xs2)
    (hs : s1 = s2) :
    applyCore cal xs1 s1 = applyCore cal xs2 s2 ∧
    ∀ ls sEnd, applyCore cal xs1 s1 = Except.ok (ls, sEnd) →
      sEnd = lcgNext^[xs1.length] s1 ∧ ls.length = xs1.length := by
  subst hx hs
  refine ⟨rfl, ?_⟩
  induction xs1 generalizing s1 with
  | nil =>
    intro ls sEnd h
    obtain ⟨h1, h2⟩ := Prod.mk.injEq .. |>.mp (Except.ok.inj h).symm
    simp [← h1, ← h2]
  | cons i t ih =>
    intro ls sEnd h
    rw [applyCore] at h
    rcases hr : findRule cal.rules i.groupId with _ | r
    · rw [hr] at h
      exact absurd h (by simp)
    · rw [hr] at h
      rcases happ : applyCore cal t (lcgNext s1) with e | ⟨ls', s'⟩
      · rw [happ] at h
        exact absurd h (by simp)
      · rw [happ] at h
        obtain ⟨h1, h2⟩ := Prod.mk.injEq .. |>.mp (Except.ok.inj h)
        obtain ⟨ih1, ih2⟩ := ih (lcgNext s1) ls' s' happ
        constructor
        · rw [← h2, ih1, List.length_cons, Function.iterate_succ_apply]
        · rw [← h1, List.length_cons, List.length_cons, ih2]

/-- Witness for C2 at a concrete calibrator, instance list and seed: the
final stream state is the 2-fold iterate of the step from seed 5, and one
label is produced per instance. -/
theorem apply_deterministic_one_draw_witness :
    lcgNext (lcgNext 5) = lcgNext^[2] 5 ∧
    ([true, false] : List Bool).length = 2 := by
  have hstep : applyCore (FittedCalibrator.mk [(0, MixingRule.mk 0 0)])
      [Instance.mk 0 true true, Instance.mk 0 false false] 5 =
      Except.ok ([true, false], lcgNext (lcgNext 5)) := by
    simp [applyCore, findRule, adjustLabel_zero_rand]
  have h := apply_deterministic_one_draw
    (FittedCalibrator.mk [(0, MixingRule.mk 0 0)])
    [Instance.mk 0 true true, Instance.mk 0 false false]
    [Instance.mk 0 true true, Instance.mk 0 false false] 5 5 rfl rfl
  exact h.2 [true, false] (lcgNext (lcgNext 5)) hstep

/-! ## The operating point a fitted rule attains (C1, C6) -/

theorem ruleOperatingPoint_zero (p : ℚ × ℚ) :
    ruleOperatingPoint p (MixingRule.mk 0 0) = p := by
  obtain ⟨F, T⟩ := p
  rw [ruleOperatingPoint, Prod.mk.injEq]
  constructor <;> ring

theorem decompose_half (F T : ℚ) :
    ruleOperatingPoint (F, T) (decompose F T (1/2) (1/2)) = (1/2, 1/2) := by
  rw [decompose]
  by_cases h1 : (1/2 : ℚ) = F ∧ (1/2 : ℚ) = T
  · rw [if_pos h1, ruleOperatingPoint_zero, ← h1.1, ← h1.2]
  · rw [if_neg h1]
    by_cases h2 : T = F
    · subst h2
      rw [if_pos rfl, ruleOperatingPoint, Prod.mk.injEq]
      constructor <;> ring
    · rw [if_neg h2]
      have hTF : T - F ≠ 0 := sub_ne_zero.mpr h2
      rw [ruleOperatingPoint, Prod.mk.injEq]
      constructor <;> (field_simp; ring)

theorem fitted_rule_hits_target (cs : List Instance) (cal : FittedCalibrator)
    (hfit : fitEO cs = Except.ok cal) (g : Nat) (r : MixingRule)
    (hr : findRule cal.rules g = some r) :
    ruleOperatingPoint (rawPoint cs g) r = targetPoint cs := by
  have hrules := fitEO_ok_rules cs cal hfit
  have hmem := findRule_some_mem _ _ _ hr
  rw [hrules] at hmem
  obtain ⟨g', hg', heq⟩ := List.mem_map.mp hmem
  obtain ⟨hgg, hrr⟩ := Prod.mk.injEq .. |>.mp heq
  subst hgg
  rw [← hrr, targetPoint]
  rcases hG : groupsOf cs with _ | ⟨g0, gs⟩
  · rw [hG] at hg'
    exact absurd hg' (List.not_mem_nil _)
  · rw [hG] at hg'
    simp only [targetOf]
    by_cases hcond :
        gs.all (fun g2 => decide (rawPoint cs g2 = rawPoint cs g0)) = true
    · rw [if_pos hcond]
      have hgeq : rawPoint cs g' = rawPoint cs g0 := by
        rcases List.mem_cons.mp hg' with rfl | hgs
        · rfl
        · exact of_decide_eq_true (List.all_eq_true.mp hcond g' hgs)
      rw [hgeq, decompose_self, ruleOperatingPoint_zero]
    · rw [if_neg hcond]
      exact decompose_half (rawPoint cs g').1 (rawPoint cs g').2

/-- C1: on any calibration set accepted by `fit` in EQUALIZED_ODDS mode,
the fitted per-group mixing rules all attain one common target operating
point, so the adjusted predictions' false-positive rates and true-positive
rates (the exact rates of the randomized mixture, i.e. the empirical rates
up to sampling noise) differ across groups by at most any configured
tolerance ≥ 0. -/
theorem fit_equalizes_rates (cs : List Instance) (cal : FittedCalibrator)
    (tol : ℚ) (htol : 0 ≤ tol) (hfit : fitEO cs = Except.ok cal)
    (g1 g2 : Nat) (r1 r2 : MixingRule)
    (h1 : findRule cal.rules g1 = some r1)
    (h2 : findRule cal.rules g2 = some r2) :
    |(ruleOperatingPoint (rawPoint cs g1) r1).1 -
      (ruleOperatingPoint (rawPoint cs g2) r2).1| ≤ tol ∧
    |(ruleOperatingPoint (rawPoint cs g1) r1).2 -
      (ruleOperatingPoint (rawPoint cs g2) r2).2| ≤ tol := by
  rw [fitted_rule_hits_target cs cal hfit g1 r1 h1,
    fitted_rule_hits_target cs cal hfit g2 r2 h2]
  constructor <;> simp [htol]

/-- C6: if the raw classifier is already perfectly fair (every group of
the calibration set has the same raw operating point), `fit` returns the
identity rule (zero flip probabilities) for every group, and `apply`
returns each instance's raw label unchanged. -/
theorem fit_fair_identity (cs : List Instance) (cal : FittedCalibrator)
    (hfit : fitEO cs = Except.ok cal)
    (hfair : ∀ g1 ∈ groupsOf cs, ∀ g2 ∈ groupsOf cs,
      rawPoint cs g1 = rawPoint cs g2) :
    (∀ pr ∈ cal.rules, pr.2 = MixingRule.mk 0 0) ∧
    ∀ xs s, (∀ i ∈ xs, i.groupId ∈ groupsOf cs) →
      applyCal cal xs s = Except.ok (xs.map Instance.rawLabel) := by
  have hrules := fitEO_ok_rules cs cal hfit
  have hzero : ∀ g ∈ groupsOf cs,
      decompose (rawPoint cs g).1 (rawPoint cs g).2
        (targetPoint cs).1 (targetPoint cs).2 = MixingRule.mk 0 0 := by
    intro g hgmem
    have htp : targetPoint cs = rawPoint cs g := by
      rw [targetPoint]
      rcases hG : groupsOf cs with _ | ⟨g0, gs⟩
      · rw [hG] at hgmem
        exact absurd hgmem (List.not_mem_nil g)
      · have hg0 : g0 ∈ groupsOf cs := by
          rw [hG]
          exact List.mem_cons_self _ _
        have hcond : gs.all
            (fun g2 => decide (rawPoint cs g2 = rawPoint cs g0)) = true := by
          rw [List.all_eq_true]
          intro g2 hg2
          exact decide_eq_true (hfair g2
            (by rw [hG]; exact List.mem_cons_of_mem _ hg2) g0 hg0)
        simp only [targetOf]
        rw [if_pos hcond]
        exact hfair g0 hg0 g hgmem
    rw [htp, decompose_self]
  refine ⟨?_, ?_⟩
  · intro pr hpr
    rw [hrules] at hpr
    obtain ⟨g, hgmem, heq⟩ := List.mem_map.mp hpr
    rw [← heq]
    exact hzero g hgmem
  · have hfst := fitEO_ok_groups cs cal hfit
    intro xs s hmem
    suffices hcore : applyCore cal xs s =
        Except.ok (xs.map Instance.rawLabel, lcgNext^[xs.length] s) by
      rw [applyCal, hcore]
      rfl
    induction xs generalizing s with
    | nil => rfl
    | cons i t ih =>
      have hgi : i.groupId ∈ groupsOf cs := hmem i (List.mem_cons_self _ _)
      obtain ⟨r, hr⟩ := findRule_some_of_mem_fst cal.rules i.groupId
        (by rw [hfst]; exact hgi)
      have hrz : r = MixingRule.mk 0 0 := by
        have hmemr := findRule_some_mem _ _ _ hr
        rw [hrules] at hmemr
        obtain ⟨g, hgmem, heq⟩ := List.mem_map.mp hmemr
        obtain ⟨hg1, hg2⟩ := Prod.mk.injEq .. |>.mp heq
        rw [← hg2]
        exact hzero g hgmem
      subst hrz
      have iht := ih (lcgNext s)
        (fun j hj => hmem j (List.mem_cons_of_mem _ hj))
      simp only [applyCore, hr, iht, adjustLabel_zero_rand]
      rw [List.map_cons, List.length_cons, Function.iterate_succ_apply]

/-- Calibration set for the C1 witness: group 0 at raw operating point
(0, 1), group 1 at (0, 1/2). -/
def csC1 : List Instance :=
  [Instance.mk 0 true true, Instance.mk 0 false false,
   Instance.mk 1 true true, Instance.mk 1 false false,
   Instance.mk 1 true false]

/-- The calibrator `fit` produces on `csC1`. -/
def calC1 : FittedCalibrator :=
  ⟨[(0, MixingRule.mk (1/2) (1/2)), (1, MixingRule.mk (1/2) (1/2))]⟩

/-- Witness for C1: on a calibration set whose two groups have different
raw operating points, the fitted rules' adjusted rates agree exactly
(difference ≤ tolerance 0). -/
theorem fit_equalizes_rates_witness :
    |(ruleOperatingPoint (rawPoint csC1 0) (MixingRule.mk (1/2) (1/2))).1 -
      (ruleOperatingPoint (rawPoint csC1 1) (MixingRule.mk (1/2) (1/2))).1| ≤ 0 ∧
    |(ruleOperatingPoint (rawPoint csC1 0) (MixingRule.mk (1/2) (1/2))).2 -
      (ruleOperatingPoint (rawPoint csC1 1) (MixingRule.mk (1/2) (1/2))).2| ≤ 0 := by
  have hg : groupsOf csC1 = [0, 1] := by decide
  have hc0 : confusionFor csC1 0 = GroupConfusionStats.mk 1 0 1 0 := by decide
  have hc1 : confusionFor csC1 1 = GroupConfusionStats.mk 1 0 1 1 := by decide
  have hr0 : rawPoint csC1 0 = (0, 1) := by
    rw [rawPoint, hc0]
    rw [GroupConfusionStats.fpr, GroupConfusionStats.tpr]
    norm_num [safeRate]
  have hr1 : rawPoint csC1 1 = (0, 1/2) := by
    rw [rawPoint, hc1]
    rw [GroupConfusionStats.fpr, GroupConfusionStats.tpr]
    norm_num [safeRate]
  have hne : rawPoint csC1 1 ≠ rawPoint csC1 0 := by
    rw [hr0, hr1]
    intro hco
    have := (Prod.mk.injEq .. |>.mp hco).2
    norm_num at this
  have hcond : ([1].all
      (fun g2 => decide (rawPoint csC1 g2 = rawPoint csC1 0))) = false := by
    rw [List.all_cons, List.all_nil, Bool.and_true]
    exact decide_eq_false hne
  have htp : targetPoint csC1 = (1/2, 1/2) := by
    rw [targetPoint, hg]
    simp only [targetOf]
    rw [if_neg (by simp [hcond])]
  have hfit : fitEO csC1 = Except.ok calC1 := by
    rw [fitEO_of_none _ (by rw [hg]; decide), hg]
    simp only [List.map_cons, List.map_nil, htp, hr0, hr1]
    norm_num [decompose, calC1]
  exact fit_equalizes_rates csC1 calC1 0 le_rfl hfit 0 1
    (MixingRule.mk (1/2) (1/2)) (MixingRule.mk (1/2) (1/2)) rfl rfl

/-- Calibration set for the C6 witness: both groups at raw operating
point (0, 1). -/
def csC6 : List Instance :=
  [Instance.mk 0 true true, Instance.mk 0 false false,
   Instance.mk 1 true true, Instance.mk 1 false false]

/-- The identity calibrator `fit` produces on `csC6`. -/
def calC6 : FittedCalibrator :=
  ⟨[(0, MixingRule.mk 0 0), (1, MixingRule.mk 0 0)]⟩

/-- Witness for C6: on an already-fair calibration set, `apply` returns
the raw label unchanged. -/
theorem fit_fair_identity_witness :
    applyCal calC6 [Instance.mk 1 false true] 3 = Except.ok [true] := by
  have hg : groupsOf csC6 = [0, 1] := by decide
  have hc0 : confusionFor csC6 0 = GroupConfusionStats.mk 1 0 1 0 := by decide
  have hc1 : confusionFor csC6 1 = GroupConfusionStats.mk 1 0 1 0 := by decide
  have hrp : rawPoint csC6 1 = rawPoint csC6 0 := by
    rw [rawPoint, rawPoint, hc0, hc1]
  have hfair : ∀ g1 ∈ groupsOf csC6, ∀ g2 ∈ groupsOf csC6,
      rawPoint csC6 g1 = rawPoint csC6 g2 := by
    rw [hg]
    intro g1 h1 g2 h2
    fin_cases h1 <;> fin_cases h2 <;> simp [hrp]
  have hcond : ([1].all
      (fun g2 => decide (rawPoint csC6 g2 = rawPoint csC6 0))) = true := by
    rw [List.all_cons, List.all_nil, Bool.and_true]
    exact decide_eq_true hrp
  have htp : targetPoint csC6 = rawPoint csC6 0 := by
    rw [targetPoint, hg]
    simp only [targetOf]
    rw [if_pos hcond]
  have hfit : fitEO csC6 = Except.ok calC6 := by
    rw [fitEO_of_none _ (by rw [hg]; decide), hg]
    simp only [List.map_cons, List.map_nil, htp, hrp, decompose_self]
    rfl
  exact (fit_fair_identity csC6 calC6 hfit hfair).2
    [Instance.mk 1 false true] 3 (by decide)

/-! ## The reachable region of a group's mixing rule (C4) -/

theorem corners_sub_cornerHull (p : ℚ × ℚ) :
    ∀ c ∈ cornersList p, c ∈ cornerHull p := by
  intro c hc
  fin_cases hc
  · exact ⟨1, 0, 0, 0, by norm_num, by norm_num, by norm_num, by norm_num,
      by ring, by rw [Prod.mk.injEq]; constructor <;> ring⟩
  · exact ⟨0, 1, 0, 0, by norm_num, by norm_num, by norm_num, by norm_num,
      by ring, by rw [Prod.mk.injEq]; constructor <;> ring⟩
  · exact ⟨0, 0, 1, 0, by norm_num, by norm_num, by norm_num, by norm_num,
      by ring, by rw [Prod.ext_iff]; constructor <;> ring⟩
  · exact ⟨0, 0, 0, 1, by norm_num, by norm_num, by norm_num, by norm_num,
      by ring, by rw [Prod.mk.injEq]; constructor <;> ring⟩

theorem cornerHull_mix (p u v : ℚ × ℚ) (hu : u ∈ cornerHull p)
    (hv : v ∈ cornerHull p) (l : ℚ) (h0 : 0 ≤ l) (h1 : l ≤ 1) :
    (l * u.1 + (1 - l) * v.1, l * u.2 + (1 - l) * v.2) ∈ cornerHull p := by
  obtain ⟨a1, b1, c1, d1, ha1, hb1, hc1, hd1, hs1, hq1⟩ := hu
  obtain ⟨a2, b2, c2, d2, ha2, hb2, hc2, hd2, hs2, hq2⟩ := hv
  have h1' : 0 ≤ 1 - l := by linarith
  refine ⟨l * a1 + (1 - l) * a2, l * b1 + (1 - l) * b2,
    l * c1 + (1 - l) * c2, l * d1 + (1 - l) * d2,
    add_nonneg (mul_nonneg h0 ha1) (mul_nonneg h1' ha2),
    add_nonneg (mul_nonneg h0 hb1) (mul_nonneg h1' hb2),
    add_nonneg (mul_nonneg h0 hc1) (mul_nonneg h1' hc2),
    add_nonneg (mul_nonneg h0 hd1) (mul_nonneg h1' hd2),
    by linear_combination l * hs1 + (1 - l) * hs2, ?_⟩
  rw [hq1, hq2]
  simp only [Prod.mk.injEq]
  constructor <;> ring

theorem reachable_sub_cornerHull (p : ℚ × ℚ) : reachable p ⊆ cornerHull p := by
  rintro q ⟨r, h0, h1, h2, h3, rfl⟩
  refine ⟨r.p0 - min r.p0 r.p1, r.p1 - min r.p0 r.p1,
    1 - r.p0 - r.p1 + min r.p0 r.p1, min r.p0 r.p1,
    sub_nonneg.mpr (min_le_left _ _), sub_nonneg.mpr (min_le_right _ _),
    ?_, le_min h0 h2, by ring, ?_⟩
  · rcases le_total r.p0 r.p1 with h | h
    · rw [min_eq_left h]
      linarith
    · rw [min_eq_right h]
      linarith
  · simp only [ruleOperatingPoint, Prod.mk.injEq]
    constructor <;> ring

theorem cornerHull_sub_reachable (p : ℚ × ℚ) : cornerHull p ⊆ reachable p := by
  rintro q ⟨a, b, c, d, ha, hb, hc, hd, hsum, rfl⟩
  refine ⟨MixingRule.mk (a + d) (b + d), add_nonneg ha hd,
    by show a + d ≤ 1; linarith, add_nonneg hb hd,
    by show b + d ≤ 1; linarith, ?_⟩
  simp only [ruleOperatingPoint, Prod.mk.injEq]
  constructor
  · linear_combination p.1 * hsum
  · linear_combination p.2 * hsum

/-- C4: in EQUALIZED_ODDS mode, the set of adjusted operating points
reachable by a group's mixing rule (flip probabilities ranging over
[0,1]²) is exactly the convex hull of the four corner strategies' points
(0,0), (1,1), (FPR_g, TPR_g), (1−FPR_g, 1−TPR_g); moreover mixing any
two corners with weight λ ∈ [0,1] attains exactly
λ·corner_a + (1−λ)·corner_b. -/
theorem reachable_eq_cornerHull_mix (p : ℚ × ℚ) :
    reachable p = cornerHull p ∧
    ∀ ca ∈ cornersList p, ∀ cb ∈ cornersList p, ∀ l : ℚ, 0 ≤ l → l ≤ 1 →
      (l * ca.1 + (1 - l) * cb.1, l * ca.2 + (1 - l) * cb.2) ∈
        reachable p := by
  have hEq : reachable p = cornerHull p :=
    Set.Subset.antisymm (reachable_sub_cornerHull p)
      (cornerHull_sub_reachable p)
  refine ⟨hEq, ?_⟩
  intro ca hca cb hcb l h0 h1
  rw [hEq]
  exact cornerHull_mix p ca cb (corners_sub_cornerHull p ca hca)
    (corners_sub_cornerHull p cb hcb) l h0 h1

/-- Witness for C4: for a group at raw point (0, 1), the λ = 1/2 mixture
of the always-0 and always-1 corners is a reachable adjusted operating
point. -/
theorem reachable_eq_cornerHull_mix_witness :
    ((1/2 : ℚ) * (0 : ℚ) + (1 - 1/2) * (1 : ℚ),
      (1/2 : ℚ) * (0 : ℚ) + (1 - 1/2) * (1 : ℚ)) ∈
      reachable ((0 : ℚ), (1 : ℚ)) :=
  (reachable_eq_cornerHull_mix ((0 : ℚ), (1 : ℚ))).2 ((0 : ℚ), (0 : ℚ))
    (by simp [cornersList]) ((1 : ℚ), (1 : ℚ)) (by simp [cornersList])
    (1/2) (by norm_num) (by norm_num)

end QFC
